import Mathlib

/-!
Verification development for the tomlfuse code generator.

The definitions below are a shallow embedding of the core data engine:
identifier normalization (`src/utils.rs`), the value-to-declaration mapping
(`src/utils.rs`), the comment harvester (`src/comments.rs`), the field model
(`src/field.rs`) and the document-reading glue (`src/module.rs`, `src/lib.rs`).
Strings are processed through character lists with structural recursion so
that every definition evaluates inside the kernel.
-/

namespace Tomlfuse

/-! ## Character/string helpers (models of the Rust `str` operations used) -/

/-- The double-quote character. -/
def qmark : Char := '"'

/-- The apostrophe character (written via its code point). -/
def squote : Char := Char.ofNat 39

/-- Model of Rust `str::trim` on a character list. -/
def trimChars (l : List Char) : List Char :=
  ((l.dropWhile Char.isWhitespace).reverse.dropWhile Char.isWhitespace).reverse

/-- Model of Rust `str::trim`. -/
def strTrim (s : String) : String := String.mk (trimChars s.toList)

/-- Model of Rust `str::is_empty` (through the character list, so that proofs
can reason on list structure). -/
def strIsEmpty (s : String) : Bool := s.toList.isEmpty

/-- Take the first `n` characters (model of byte slicing `s[..n]` on ASCII). -/
def strTake (s : String) (n : Nat) : String := String.mk (s.toList.take n)

/-- Drop the first `n` characters (model of byte slicing `s[n..]` on ASCII). -/
def strDrop (s : String) (n : Nat) : String := String.mk (s.toList.drop n)

/-- Characters strictly between positions `a` and `b` (model of `s[a..b]`). -/
def strSlice (s : String) (a b : Nat) : String :=
  String.mk ((s.toList.take b).drop a)

/-- Model of Rust `str::contains` for a literal substring. -/
def containsSeq (sub : List Char) : List Char → Bool
  | [] => sub.isEmpty
  | x :: xs => sub.isPrefixOf (x :: xs) || containsSeq sub xs

/-- Model of Rust `str::contains` on strings. -/
def strContains (s sub : String) : Bool := containsSeq sub.toList s.toList

/-- Does the string start with the given character? -/
def startsWithChar (s : String) (c : Char) : Bool :=
  match s.toList with
  | [] => false
  | x :: _ => x = c

/-- Model of Rust `str::find(char)`: index of the first occurrence. -/
def findCharIdx (s : String) (c : Char) : Option Nat :=
  s.toList.findIdx? (fun x => x = c)

/-- Split a character list on a separator character (model of `str::split`). -/
def splitOnChar (c : Char) : List Char → List (List Char)
  | [] => [[]]
  | x :: xs =>
    let r := splitOnChar c xs
    if x = c then [] :: r
    else
      match r with
      | [] => [[x]]
      | y :: ys => (x :: y) :: ys

/-- Model of `str::split('.')` collecting to strings. -/
def splitDots (s : String) : List String :=
  (splitOnChar '.' s.toList).map String.mk

/-- Model of splitting a document into physical lines on the newline character. -/
def splitLines (s : String) : List String :=
  (splitOnChar '\n' s.toList).map String.mk

/-- Join strings with a separator (model of `Vec::join`). -/
def joinWith (sep : String) : List String → String
  | [] => ""
  | [x] => x
  | x :: y :: ys => x ++ sep ++ joinWith sep (y :: ys)

/-- Join with `"."` (dotted paths). -/
def joinDots (l : List String) : String := joinWith "." l

/-- Join with `"\n"` (comment lines). -/
def joinNl (l : List String) : String := joinWith "\n" l

/-! ## Identifier normalization (`src/utils.rs`) -/

/-- The root sentinel (`field.rs`: `pub const ROOT: &str = "";`). -/
def ROOT : String := ""

/-- Replace a dash by an underscore (the character map of `str::replace('-', "_")`). -/
def dashToUnderscore (c : Char) : Char := if c = '-' then '_' else c

/-- Replace an underscore by a dash (the character map of `str::replace('_', "-")`). -/
def underscoreToDash (c : Char) : Char := if c = '_' then '-' else c

/-- `utils::kebab_to_snake`: replace all dashes with underscores. -/
def kebab_to_snake (input : String) : String :=
  String.mk (input.toList.map dashToUnderscore)

/-- `utils::snake_to_kebab`: replace all underscores with dashes. -/
def snake_to_kebab (input : String) : String :=
  String.mk (input.toList.map underscoreToDash)

/-- Model of `input.trim_start_matches('"')`: drop all leading double quotes. -/
def trimStartQuotes (l : List Char) : List Char := l.dropWhile (fun c => c = qmark)

/-- Model of `.trim_end_matches('"')`: drop all trailing double quotes. -/
def trimEndQuotes (l : List Char) : List Char :=
  (l.reverse.dropWhile (fun c => c = qmark)).reverse

/-- `utils::to_valid_ident`: strip leading/trailing double quotes with
`trim_start_matches`/`trim_end_matches`, return `ROOT` on empty, then
`kebab_to_snake`. -/
def to_valid_ident (input : String) : String :=
  let i := trimEndQuotes (trimStartQuotes input.toList)
  if i.isEmpty then ROOT
  else String.mk (i.map dashToUnderscore)

/-! ## The TOML value tree (output of the external decoder)

Mutual inductives are used instead of nested `List` fields so that every
recursion over the tree is structural and kernel-evaluable.  `VFloat` carries
the 64-bit pattern of the `f64` payload; `VDatetime` carries the decoder's
string rendering. -/

mutual
inductive Value where
  | VString : String → Value
  | VInteger : Int → Value
  | VFloat : Nat → Value
  | VBoolean : Bool → Value
  | VDatetime : String → Value
  | VArray : VList → Value
  | VTable : VEntries → Value

inductive VList where
  | nil : VList
  | cons : Value → VList → VList

inductive VEntries where
  | nil : VEntries
  | cons : String → Value → VEntries → VEntries
end

/-- Variant discriminant (model of `std::mem::discriminant`). -/
def Value.tag : Value → Nat
  | .VString _ => 0
  | .VInteger _ => 1
  | .VFloat _ => 2
  | .VBoolean _ => 3
  | .VDatetime _ => 4
  | .VArray _ => 5
  | .VTable _ => 6

/-- Is this value a table? (`TomlField::is_table`). -/
def Value.isTableB : Value → Bool
  | .VTable _ => true
  | _ => false

/-- First element of a `VList` (model of `arr[0]` guarded by non-emptiness). -/
def VList.head? : VList → Option Value
  | .nil => none
  | .cons v _ => some v

/-- `all` over a `VList` (model of `arr.iter().all(..)`). -/
def VList.all (l : VList) (p : Value → Bool) : Bool :=
  match l with
  | .nil => true
  | .cons v rest => p v && rest.all p

/-- Collect a `VList` into a `List` through a function. -/
def VList.mapToList (l : VList) (f : Value → α) : List α :=
  match l with
  | .nil => []
  | .cons v rest => f v :: rest.mapToList f

/-! ## Value-to-declaration mapping (`utils::convert_value_to_tokens`)

The emitted token streams are modelled by data: `RustType` mirrors the type
tokens (`&'static str`, `i64`, ...), `TokenLit` mirrors the value tokens.  The
two fallback renderings (`format!("{:?}", arr)` and `format!("{}", value)`)
are kept as constructors carrying the data they would render. -/

inductive RustType where
  | strRef : RustType
  | i64 : RustType
  | f64 : RustType
  | bool : RustType
  | slice : RustType → RustType
deriving DecidableEq

inductive TokenLit where
  | str : String → TokenLit
  | int : Int → TokenLit
  | float : Nat → TokenLit
  | bool : Bool → TokenLit
  | arr : List TokenLit → TokenLit
  | debug : VList → TokenLit
  | display : Value → TokenLit

mutual
/-- `utils::convert_value_to_tokens`, translated case by case from the Rust
`match`.  The `Value::Table` case falls into the Rust catch-all arm, which
renders the value with `Display`. -/
def convert_value_to_tokens : Value → RustType × TokenLit
  | .VString s => (.strRef, .str s)
  | .VInteger i => (.i64, .int i)
  | .VFloat f => (.f64, .float f)
  | .VBoolean b => (.bool, .bool b)
  | .VDatetime dt => (.strRef, .str dt)
  | .VArray .nil => (.slice .strRef, .arr [])
  | .VArray (.cons a rest) =>
    let elemTy := (convert_value_to_tokens a).1
    if (VList.cons a rest).all (fun v => v.tag == a.tag) then
      (.slice elemTy, .arr (convertTokens (.cons a rest)))
    else
      (.strRef, .debug (.cons a rest))
  | .VTable t => (.strRef, .display (.VTable t))

/-- The element-literal collection `arr.iter().map(|v| convert(v).1)`. -/
def convertTokens : VList → List TokenLit
  | .nil => []
  | .cons v rest => (convert_value_to_tokens v).2 :: convertTokens rest
end

/-! ## Comment harvester (`src/comments.rs`) -/

/-- `comments::StringState`. -/
inductive StringState where
  | None : StringState
  | MultiSingleQuote : StringState
  | MultiDoubleQuote : StringState
deriving DecidableEq

/-- The harvester's loop state: the map built so far (`comments`), the
multi-line-string flag, the pending comment accumulator and the current
header path. -/
structure CState where
  comments : List (String × String)
  string_state : StringState
  current_comments : List String
  current_path : List String
deriving DecidableEq

/-- The empty harvester state at the top of `extract_comments`. -/
def initState : CState := ⟨[], .None, [], []⟩

/-- `HashMap::insert`: replace the binding when the key is present, otherwise
append it. -/
def mapInsert (m : List (String × String)) (k v : String) : List (String × String) :=
  if m.any (fun kv => kv.1 = k) then
    m.map (fun kv => if kv.1 = k then (k, v) else kv)
  else m ++ [(k, v)]

/-- First-match association lookup (`HashMap::get`). -/
def assocGet (m : List (String × String)) (k : String) : Option String :=
  (m.find? (fun kv => kv.1 = k)).map (fun kv => kv.2)

/-- The `"""` delimiter. -/
def tripleDq : String := String.mk [qmark, qmark, qmark]

/-- The degenerate six-double-quote form. -/
def sixDq : String := String.mk [qmark, qmark, qmark, qmark, qmark, qmark]

/-- The `'''` delimiter. -/
def tripleSq : String := String.mk [squote, squote, squote]

/-- The degenerate six-single-quote form. -/
def sixSq : String := String.mk [squote, squote, squote, squote, squote, squote]

/-- `comments::extract_inline_comment`: the text after the first `#`, provided
that `#` lies strictly beyond `after_pos` and the trimmed text is non-empty. -/
def extract_inline_comment (line : String) (after_pos : Nat) : Option String :=
  match findCharIdx line '#' with
  | some comment_pos =>
    if after_pos < comment_pos then
      let comment := strTrim (strDrop line (comment_pos + 1))
      if strIsEmpty comment then none else some comment
    else none
  | none => none

/-- The dotted path bound by a key line: current header path plus the trimmed
segments of the (possibly dotted) key before the `=` at index `pos`. -/
def keyPathStr (current_path : List String) (trimmed : String) (pos : Nat) : String :=
  joinDots (current_path ++ (splitDots (strTrim (strTake trimmed pos))).map strTrim)

/-- The tail of the harvester's per-line processing: the `#` branch, the
key-value branch, and the accumulator-clearing fallthrough (reached for
non-blank lines that are not headers-with-`]` and started no multi-line
string). -/
def stepRest (s : CState) (trimmed : String) : CState :=
  if startsWithChar trimmed '#' then
    let comment_text := strTrim (strDrop trimmed 1)
    { s with current_comments :=
        s.current_comments ++ [if strIsEmpty comment_text then "" else comment_text] }
  else
    match findCharIdx trimmed '=' with
    | some pos =>
      let path_str := keyPathStr s.current_path trimmed pos
      let key_comments := s.current_comments ++ (extract_inline_comment trimmed pos).toList
      let comments :=
        if key_comments.isEmpty then s.comments
        else mapInsert s.comments path_str (joinNl key_comments)
      { s with comments := comments, current_comments := [] }
    | none => { s with current_comments := [] }

/-- One iteration of the line loop of `comments::extract_comments`. -/
def stepLine (s : CState) (line : String) : CState :=
  let trimmed := strTrim line
  if strIsEmpty trimmed then { s with current_comments := [] }
  else if s.string_state ≠ .None then
    match s.string_state with
    | .MultiSingleQuote =>
      if strContains trimmed tripleSq then { s with string_state := .None } else s
    | .MultiDoubleQuote =>
      if strContains trimmed tripleDq then { s with string_state := .None } else s
    | .None => s
  else
    let string_state :=
      if strContains trimmed tripleDq && !strContains trimmed sixDq then
        StringState.MultiDoubleQuote
      else if strContains trimmed tripleSq && !strContains trimmed sixSq then
        StringState.MultiSingleQuote
      else StringState.None
    if string_state ≠ .None then { s with string_state := string_state }
    else if startsWithChar trimmed '[' then
      match findCharIdx trimmed ']' with
      | some section_end =>
        let section_path := strSlice trimmed 1 section_end
        let all_comments :=
          s.current_comments ++ (extract_inline_comment trimmed section_end).toList
        let comments :=
          if all_comments.isEmpty then s.comments
          else mapInsert s.comments section_path (joinNl all_comments)
        { s with comments := comments,
                 current_path := splitDots section_path,
                 current_comments := [] }
      | none => stepRest s trimmed
    else stepRest s trimmed

/-- The line loop of `comments::extract_comments`. -/
def processLines (s : CState) (lines : List String) : CState :=
  lines.foldl stepLine s

/-- `comments::extract_comments`: the harvested comment map of a document. -/
def extract_comments (content : String) : List (String × String) :=
  if strIsEmpty content then []
  else (processLines initState (splitLines content)).comments

/-! ## Field model (`src/field.rs`) -/

/-- `field::TomlField`.  The `value` borrow is modelled by an owned copy of
the node. -/
structure TomlField where
  name : String
  value : Value
  path : String
  relative_path : Option String
  toml_path : Option String
  «alias» : Option String
  parent : Option Nat
  comment : Option String

/-- `field::Patterns`.  The compiled `GlobSet`s are modelled abstractly as
match predicates on dotted path strings; `none` models the absent set. -/
structure Patterns where
  inclusions : Option (String → Bool)
  exclusions : Option (String → Bool)
  literals : List String

/-- `field::TomlFields`.  The alias map is a list of
`(alias.to_string(), orig.to_string())` pairs, mirroring how the Rust code
only ever consumes `Pattern`s through `to_string`. -/
structure TomlFields where
  root_value : Option Value
  fields : List TomlField
  patterns : Patterns
  aliases : Option (List (String × String))
  comments : Option (List (String × String))

/-- The alias lookup of `extract_matched_paths_from_value`: the first alias
pair whose source display equals the raw path or its normalized form. -/
def aliasLookup (aliases : Option (List (String × String))) (p : String) :
    Option (String × String) :=
  aliases.bind (fun as =>
    let processed := to_valid_ident p
    as.findSome? (fun al =>
      if p = al.2 ∨ processed = al.2 then some al else none))

/-- The alias name retained on the field: the alias target unless it is the
`*` wildcard. -/
def aliasNameOf (aliases : Option (List (String × String))) (p : String) :
    Option String :=
  (aliasLookup aliases p).bind (fun al => if al.1 = "*" then none else some al.1)

/-- The alias-rewritten path: the last segment of the raw path replaced by the
alias target (`format!("{}.{}", prefix, alias)`), or the raw path unchanged. -/
def aliasedPathOf (aliases : Option (List (String × String))) (p : String) : String :=
  match aliasLookup aliases p with
  | some al =>
    let psvec := splitDots p
    joinDots (psvec.take (psvec.length - 1)) ++ "." ++ al.1
  | none => p

/-- Last segment of a dotted path (`path.split('.').last()`). -/
def lastSeg (path : String) : String := (splitDots path).getLastD ""

/-- The field record constructed for a non-root node during the walk
(`TomlField::new(..).with_alias(..).with_toml_path(..)`; `with_alias` ignores
the `ROOT` argument used for "no alias"). -/
def mkWalkField (path : String) (value : Value) (orig_path : String)
    (alias_name : Option String) (parent_idx : Nat) : TomlField :=
  { name := lastSeg path
    value := value
    path := path
    relative_path := none
    toml_path := some orig_path
    «alias» := alias_name.bind (fun a => if a = ROOT then none else some a)
    parent := some parent_idx
    comment := none }

/-- `TomlField::root`. -/
def rootField (value : Value) : TomlField :=
  { name := ROOT, value := value, path := ROOT, relative_path := none,
    toml_path := none, «alias» := none, parent := none, comment := none }

/-- `inclusions.is_none() || inclusions.is_match(path)`. -/
def leafInclPass (pats : Patterns) (path : String) : Bool :=
  match pats.inclusions with
  | none => true
  | some g => g path

/-- `exclusions.is_none() || !exclusions.is_match(path)`. -/
def leafExclPass (pats : Patterns) (path : String) : Bool :=
  match pats.exclusions with
  | none => true
  | some g => !g path

/-- The `skip` flag computed for a leaf before the alias rescue. -/
def leafSkip (pats : Patterns) (path : String) : Bool :=
  !((path == ROOT) || (leafInclPass pats path && leafExclPass pats path))

/-- The leaf arm of `extract_matched_paths_from_value`: apply the alias
rescue (which also collapses the path onto the name) and push the field
unless it is skipped. -/
def extractLeaf (tf : TomlFields) (field : TomlField) (path : String)
    (is_alias : Bool) : TomlFields :=
  let skip := leafSkip tf.patterns path
  let fs : TomlField × Bool :=
    if is_alias && skip then ({ field with path := field.name }, false)
    else (field, skip)
  if fs.2 then tf else { tf with fields := tf.fields ++ [fs.1] }

mutual
/-- `TomlFields::extract_matched_paths_from_value`: the recursive document
walk.  Tables always push their record and recurse; leaves go through the
inclusion/exclusion/alias decision of `extractLeaf`. -/
def extract_matched_paths_from_value (tf : TomlFields) (value : Value)
    (p : String) (parent_idx : Nat) : TomlFields :=
  let orig_path := p
  let alias? := aliasLookup tf.aliases p
  let alias_name := aliasNameOf tf.aliases p
  let is_alias := alias?.isSome
  let aliased_path := aliasedPathOf tf.aliases p
  let path := to_valid_ident aliased_path
  let fi : TomlField × Nat :=
    if parent_idx == 0 && tf.fields.isEmpty then (rootField value, 0)
    else (mkWalkField path value orig_path alias_name parent_idx, tf.fields.length)
  match value with
  | .VTable entries =>
    extractEntries { tf with fields := tf.fields ++ [fi.1] } path entries fi.2
  | _ => extractLeaf tf fi.1 path is_alias

/-- The `for (key, val) in table.iter()` loop of the walk. -/
def extractEntries (tf : TomlFields) (path : String) (entries : VEntries)
    (field_idx : Nat) : TomlFields :=
  match entries with
  | .nil => tf
  | .cons key val rest =>
    let new_path := if strIsEmpty path then key else path ++ "." ++ key
    extractEntries (extract_matched_paths_from_value tf val new_path field_idx)
      path rest field_idx
end

/-- The candidate relative path computed inside the loop of
`TomlFields::get_relative_path` for one non-negated pattern: the path
segments that are non-empty and do not occur among the pattern's segments,
re-joined with dots. -/
def relCandidate (path pat : String) : String :=
  let pat_segs := (splitDots pat).filter
    (fun s => !strIsEmpty s || s == "*" || s == "**")
  let path_segs := (splitDots path).filter
    (fun s => !strIsEmpty s && !pat_segs.contains s)
  joinDots path_segs

/-- The best-match update of `TomlFields::get_relative_path`: keep the
candidate when there is no best match yet or when it is strictly shorter
(`best_match.as_ref().unwrap().len() > rel_path.len()`). -/
def chooseStep (best : Option String) (rel_path : String) : Option String :=
  match best with
  | none => some rel_path
  | some b => if rel_path.length < b.length then some rel_path else some b

/-- `TomlFields::get_relative_path`: fold over the literal patterns, skipping
negated ones, keeping the shortest residue after dropping path segments that
occur among the pattern's segments. -/
def get_relative_path (literals : List String) (path : String) : Option String :=
  literals.foldl
    (fun best pat =>
      if startsWithChar pat '!' then best
      else chooseStep best (relCandidate path pat))
    none

/-- The alias re-attachment of `TomlFields::build`: set the alias on the
first field whose path equals the alias source display. -/
def setAliasOnFirst (fs : List TomlField) (al orig : String) : List TomlField :=
  match fs with
  | [] => []
  | f :: rest =>
    if f.path = orig then { f with «alias» := some al } :: rest
    else f :: setAliasOnFirst rest al orig

/-- The four-step comment lookup of `TomlFields::build`: absolute path, its
kebab form, the document path, its kebab form. -/
def commentLookup (comments : Option (List (String × String))) (f : TomlField) :
    Option String :=
  comments.bind (fun c =>
    let out := assocGet c f.path
    let out := if out.isNone then assocGet c (snake_to_kebab f.path) else out
    if out.isNone then
      match f.toml_path with
      | some tp =>
        let o := assocGet c tp
        if o.isNone then assocGet c (snake_to_kebab tp) else o
      | none => none
    else out)

/-- `TomlFields::build`: run the walk from the root value, then attach
relative paths, aliases and comments.  (The Rust code panics when the root
value is absent; the embedding returns the collection unchanged, a case the
pipeline never produces.) -/
def TomlFields.build (tf : TomlFields) : TomlFields :=
  let tf :=
    match tf.root_value with
    | some v => extract_matched_paths_from_value tf v ROOT 0
    | none => tf
  let tf := { tf with fields := tf.fields.map (fun (f : TomlField) =>
    match get_relative_path tf.patterns.literals f.path with
    | some rel => { f with relative_path := some rel }
    | none => f) }
  let tf :=
    match tf.aliases with
    | some as =>
      { tf with fields :=
          as.foldl (fun fs (al : String × String) => setAliasOnFirst fs al.1 al.2) tf.fields }
    | none => tf
  { tf with fields := tf.fields.map (fun (f : TomlField) =>
    match commentLookup tf.comments f with
    | some c => { f with comment := some c }
    | none => f) }

/-- `TomlField::effective_module_path`. -/
def TomlField.effective_module_path (f : TomlField) : List String :=
  match f.relative_path with
  | some rel => (splitDots rel).filter (fun s => !strIsEmpty s)
  | none => (splitDots f.path).filter (fun s => !strIsEmpty s)

/-- `TomlFields::get_by_name`: the first field with the given name. -/
def TomlFields.get_by_name (tf : TomlFields) (name : String) : Option TomlField :=
  tf.fields.find? (fun f => f.name == name)

/-- The name the effective-tree parent is looked up under: the second-to-last
segment of the effective module path, or `ROOT` when fewer than two segments
remain. -/
def relativeParentName (f : TomlField) : String :=
  let ep := f.effective_module_path
  let ep' := ep.take (ep.length - 1)
  if !ep'.isEmpty then ep'.getLastD ROOT else ROOT

/-- `TomlFields::get_relative_parent_of_field`.  The Rust function panics
when the lookup fails; the embedding returns an `Option`. -/
def TomlFields.get_relative_parent_of_field (tf : TomlFields) (f : TomlField) :
    Option TomlField :=
  tf.get_by_name (relativeParentName f)

/-! ## Document reading glue (`module::RootModule::new`, `lib::generate_modules`)

The file system is abstracted as a partial map from path strings to contents;
`PathBuf::join` on a relative path is rendered as separator concatenation. -/

/-- `PathBuf::join` for the relative document paths used here. -/
def pathJoin (dir p : String) : String := dir ++ "/" ++ p

/-- The read chain of `RootModule::new`: try the given path, then the path
under the workspace root, then the path under the manifest directory, and
fall back to the *default* (empty) string when all three fail
(`unwrap_or(... unwrap_or(... unwrap_or_default()))`). -/
def rootModuleNewTomlRaw (readFile : String → Option String)
    (workspace_root manifest_dir toml_path : String) : String :=
  (readFile toml_path).getD
    ((readFile (pathJoin workspace_root toml_path)).getD
      ((readFile (pathJoin manifest_dir toml_path)).getD ""))

/-- The read step of `lib::generate_modules`: a failed read is fatal
(`unwrap_or_else(|_| panic!("Failed to read TOML at {:?}", toml_path))`),
modelled as `Except.error`. -/
def generateModulesReadToml (readFile : String → Option String)
    (toml_path : String) : Except String String :=
  match readFile toml_path with
  | some content => Except.ok content
  | none => Except.error ("Failed to read TOML at " ++ toml_path)

/-! ## General helper lemmas -/

/-- A string is `strIsEmpty` exactly when it is the empty string. -/
lemma strIsEmpty_iff (s : String) : strIsEmpty s = true ↔ s = "" := by
  cases s with
  | mk data =>
    simp only [strIsEmpty, String.toList, List.isEmpty_iff]
    exact ⟨fun h => by simp [h], fun h => by simpa using congrArg String.data h⟩

/-- Every list splits as a replicate of `q` followed by its `dropWhile`. -/
lemma dropWhile_decomp (q : Char) (l : List Char) :
    ∃ n, l = List.replicate n q ++ l.dropWhile (fun c => c = q) := by
  induction l with
  | nil => exact ⟨0, rfl⟩
  | cons x xs ih =>
    by_cases hx : x = q
    · obtain ⟨n, hn⟩ := ih
      subst hx
      refine ⟨n + 1, ?_⟩
      rw [List.replicate_succ, List.cons_append, List.dropWhile_cons]
      simpa using hn
    · refine ⟨0, ?_⟩
      rw [List.dropWhile_cons]
      simp [hx]

/-- Decomposition of a successful `find?`: the element satisfies the predicate,
and nothing before it does. -/
lemma find?_decomp {α : Type} (pr : α → Bool) (l : List α) (a : α)
    (h : l.find? pr = some a) :
    pr a = true ∧ ∃ l1 l2, l = l1 ++ a :: l2 ∧ ∀ x ∈ l1, pr x = false := by
  induction l with
  | nil => simp at h
  | cons x xs ih =>
    by_cases hx : pr x = true
    · rw [List.find?_cons_of_pos _ hx] at h
      obtain rfl : x = a := by simpa using h
      exact ⟨hx, [], xs, rfl, by simp⟩
    · have hx' : pr x = false := by simpa using hx
      rw [List.find?_cons_of_neg _ (by simp [hx'])] at h
      obtain ⟨hpa, l1, l2, heq, hall⟩ := ih h
      refine ⟨hpa, x :: l1, l2, by simp [heq], ?_⟩
      intro y hy
      rcases List.mem_cons.mp hy with rfl | hy
      · exact hx'
      · exact hall y hy

/-! ## Claim C8: identifier normalization -/

/-- Quote stripping decomposes the input into a leading quote run, the core,
and a trailing quote run. -/
lemma quoteRunDecomp (l : List Char) :
    ∃ n m, l = List.replicate n qmark ++ trimEndQuotes (trimStartQuotes l)
      ++ List.replicate m qmark := by
  obtain ⟨n, hn⟩ := dropWhile_decomp qmark l
  obtain ⟨m, hm⟩ := dropWhile_decomp qmark (trimStartQuotes l).reverse
  refine ⟨n, m, ?_⟩
  have h2 : trimStartQuotes l
      = trimEndQuotes (trimStartQuotes l) ++ List.replicate m qmark := by
    conv_lhs => rw [← List.reverse_reverse (trimStartQuotes l), hm]
    rw [List.reverse_append, List.reverse_replicate]
    rfl
  have hstart : l = List.replicate n qmark ++ trimStartQuotes l := hn
  rw [List.append_assoc, ← h2]
  exact hstart

/-- The quote-stripped core is empty exactly when the input is all quotes. -/
lemma core_all_quotes_iff (l : List Char) :
    trimEndQuotes (trimStartQuotes l) = [] ↔ ∀ c ∈ l, c = qmark := by
  constructor
  · intro h c hc
    obtain ⟨n, m, hd⟩ := quoteRunDecomp l
    rw [h] at hd
    rw [hd] at hc
    rcases List.mem_append.mp hc with h1 | h1
    · rcases List.mem_append.mp h1 with h2 | h2
      · exact List.eq_of_mem_replicate h2
      · simp at h2
    · exact List.eq_of_mem_replicate h1
  · intro h
    have h1 : trimStartQuotes l = [] := by
      unfold trimStartQuotes
      rw [List.dropWhile_eq_nil_iff]
      intro x hx
      simpa using h x hx
    rw [h1]
    rfl

/-- The normalization rule exactly as claim C8 states it: (a) when the first
and the last character are both a double quote, strip that single pair;
(b) empty result maps to the root sentinel; (c) every dash becomes an
underscore; nothing else changes. -/
def toValidIdentClaim (input : String) : String :=
  let l := input.toList
  let stripped :=
    if 2 ≤ l.length ∧ l.head? = some qmark ∧ l.getLast? = some qmark
    then (l.drop 1).dropLast else l
  if stripped.isEmpty then ROOT else String.mk (stripped.map dashToUnderscore)

/-- C8, counterexample: on the input `"a` (a double quote followed by `a`) the
code strips the unmatched leading quote (`trim_start_matches` removes every
leading quote regardless of the trailing character), while the claim's rule
(a) does not apply, so the claim predicts the quote is kept. -/
theorem c8_counterexample :
    to_valid_ident (String.mk [qmark, 'a']) = "a" ∧
    toValidIdentClaim (String.mk [qmark, 'a']) = String.mk [qmark, 'a'] ∧
    ("a" : String) ≠ String.mk [qmark, 'a'] := by decide

/-- C8, amended: normalization strips *all* leading and *all* trailing double
quotes (not just one matched pair); the result is the root sentinel exactly
when the input consists of double quotes only, and otherwise is the
quote-stripped core with every dash replaced by an underscore and nothing
else changed. -/
theorem c8_amended (s : String) :
    (to_valid_ident s = ROOT ↔ ∀ c ∈ s.toList, c = qmark) ∧
    (∃ n m, s.toList
        = List.replicate n qmark
            ++ trimEndQuotes (trimStartQuotes s.toList)
            ++ List.replicate m qmark) ∧
    ((∃ c ∈ s.toList, c ≠ qmark) →
      (to_valid_ident s).toList
        = (trimEndQuotes (trimStartQuotes s.toList)).map dashToUnderscore) := by
  refine ⟨?_, quoteRunDecomp s.toList, ?_⟩
  · rw [← core_all_quotes_iff s.toList]
    simp only [to_valid_ident]
    constructor
    · intro h
      by_cases hemp : trimEndQuotes (trimStartQuotes s.toList) = []
      · exact hemp
      · exfalso
        rw [if_neg (show ¬((trimEndQuotes (trimStartQuotes s.toList)).isEmpty = true) by
          simpa [List.isEmpty_iff] using hemp)] at h
        have hd : List.map dashToUnderscore (trimEndQuotes (trimStartQuotes s.toList)) = [] :=
          congrArg String.toList h
        exact hemp (List.map_eq_nil_iff.mp hd)
    · intro h
      rw [h]
      rfl
  · rintro ⟨c, hc, hcq⟩
    have hemp : trimEndQuotes (trimStartQuotes s.toList) ≠ [] := fun he =>
      hcq ((core_all_quotes_iff s.toList).mp he c hc)
    simp only [to_valid_ident]
    rw [if_neg (show ¬((trimEndQuotes (trimStartQuotes s.toList)).isEmpty = true) by
      simpa [List.isEmpty_iff] using hemp)]
    rfl

/-! ## Claim C3: relative-path resolution -/

/-- The list of candidate relative paths, one per non-negated literal pattern
(the spec's "inspect each non-negated literal pattern ... what remains becomes
the candidate relative path"). -/
def relCandidates (literals : List String) (path : String) : List String :=
  literals.filterMap (fun pat =>
    if startsWithChar pat '!' then none else some (relCandidate path pat))

/-- The pattern fold of `get_relative_path` is the candidate fold. -/
lemma grp_aux (path : String) (lits : List String) (acc : Option String) :
    lits.foldl
        (fun best pat =>
          if startsWithChar pat '!' then best
          else chooseStep best (relCandidate path pat))
        acc
      = (relCandidates lits path).foldl chooseStep acc := by
  induction lits generalizing acc with
  | nil => rfl
  | cons pat rest ih =>
    rw [List.foldl_cons]
    by_cases hp : startsWithChar pat '!' = true
    · rw [if_pos hp]
      rw [ih]
      congr 1
      simp [relCandidates, List.filterMap_cons, hp]
    · rw [if_neg hp]
      conv_rhs =>
        rw [show relCandidates (pat :: rest) path
            = relCandidate path pat :: relCandidates rest path from by
          simp [relCandidates, List.filterMap_cons, hp]]
      rw [List.foldl_cons]
      exact ih _

/-- The best-match update never discards a present best match. -/
lemma chooseStep_ne_none (acc : Option String) (c : String) :
    chooseStep acc c ≠ none := by
  cases acc with
  | none => simp [chooseStep]
  | some b =>
    unfold chooseStep
    simp only []
    split <;> simp

/-- The candidate fold returns nothing exactly when it starts from nothing
and sees no candidate. -/
lemma chooseFold_eq_none_iff (cands : List String) (acc : Option String) :
    cands.foldl chooseStep acc = none ↔ acc = none ∧ cands = [] := by
  induction cands generalizing acc with
  | nil => simp
  | cons c cs ih =>
    rw [List.foldl_cons, ih]
    simp [chooseStep_ne_none acc c]

/-- A successful candidate fold yields a candidate (or the start value) of
minimal length. -/
lemma chooseFold_min (cands : List String) (acc : Option String) (r : String)
    (h : cands.foldl chooseStep acc = some r) :
    (r ∈ cands ∨ acc = some r) ∧ (∀ c ∈ cands, r.length ≤ c.length)
      ∧ (∀ b, acc = some b → r.length ≤ b.length) := by
  induction cands generalizing acc with
  | nil =>
    simp only [List.foldl_nil] at h
    refine ⟨Or.inr h, by simp, fun b hb => ?_⟩
    rw [hb] at h
    obtain rfl : b = r := by simpa using h
    exact le_refl _
  | cons c cs ih =>
    rw [List.foldl_cons] at h
    obtain ⟨hmem, hmin, hacc⟩ := ih (chooseStep acc c) h
    cases acc with
    | none =>
      have hstep : chooseStep none c = some c := rfl
      rw [hstep] at hmem hacc
      have hrc : r.length ≤ c.length := hacc c rfl
      refine ⟨?_, ?_, ?_⟩
      · rcases hmem with hm | hm
        · exact Or.inl (List.mem_cons_of_mem _ hm)
        · have : c = r := by simpa using hm
          exact Or.inl (this ▸ List.mem_cons_self c cs)
      · intro x hx
        rcases List.mem_cons.mp hx with rfl | hx
        · exact hrc
        · exact hmin x hx
      · intro b hb
        simp at hb
    | some b =>
      by_cases hcb : c.length < b.length
      · have hstep : chooseStep (some b) c = some c := by simp [chooseStep, hcb]
        rw [hstep] at hmem hacc
        have hrc : r.length ≤ c.length := hacc c rfl
        refine ⟨?_, ?_, ?_⟩
        · rcases hmem with hm | hm
          · exact Or.inl (List.mem_cons_of_mem _ hm)
          · have : c = r := by simpa using hm
            exact Or.inl (this ▸ List.mem_cons_self c cs)
        · intro x hx
          rcases List.mem_cons.mp hx with rfl | hx
          · exact hrc
          · exact hmin x hx
        · intro b' hb'
          obtain rfl : b = b' := by simpa using hb'
          exact le_trans hrc (le_of_lt hcb)
      · have hstep : chooseStep (some b) c = some b := by simp [chooseStep, hcb]
        rw [hstep] at hmem hacc
        have hrb : r.length ≤ b.length := hacc b rfl
        refine ⟨?_, ?_, ?_⟩
        · rcases hmem with hm | hm
          · exact Or.inl (List.mem_cons_of_mem _ hm)
          · exact Or.inr hm
        · intro x hx
          rcases List.mem_cons.mp hx with rfl | hx
          · exact le_trans hrb (Nat.le_of_not_lt hcb)
          · exact hmin x hx
        · intro b' hb'
          obtain rfl : b = b' := by simpa using hb'
          exact hrb

/-- C3: the relative path of a retained field is computed per non-negated
literal pattern by dropping from the field's dotted path every segment that
appears in that pattern's segment list, and the shortest remaining candidate
across all patterns is chosen (no candidate, i.e. no non-negated pattern,
yields no relative path). -/
theorem c3_relative_path (lits : List String) (path : String) :
    (get_relative_path lits path = none ↔ relCandidates lits path = []) ∧
    ∀ r, get_relative_path lits path = some r →
      r ∈ relCandidates lits path
        ∧ ∀ c ∈ relCandidates lits path, r.length ≤ c.length := by
  have heq : get_relative_path lits path
      = (relCandidates lits path).foldl chooseStep none := grp_aux path lits none
  constructor
  · rw [heq, chooseFold_eq_none_iff]
    simp
  · intro r h
    rw [heq] at h
    obtain ⟨hmem, hmin, _⟩ := chooseFold_min _ none r h
    refine ⟨?_, hmin⟩
    rcases hmem with hm | hm
    · exact hm
    · simp at hm

/-- C3, witness: the pattern list `["a.*"]` against the path `a.b.c` (the
residue is `b.c`). -/
theorem c3_witness :
    ((get_relative_path ["a.*"] "a.b.c" = none ↔ relCandidates ["a.*"] "a.b.c" = []) ∧
      ∀ r, get_relative_path ["a.*"] "a.b.c" = some r →
        r ∈ relCandidates ["a.*"] "a.b.c"
          ∧ ∀ c ∈ relCandidates ["a.*"] "a.b.c", r.length ≤ c.length) ∧
    get_relative_path ["a.*"] "a.b.c" = some "b.c" :=
  ⟨c3_relative_path ["a.*"] "a.b.c", by decide⟩

/-! ## Claim C1: leaf retention in the document walk -/

/-- The retention condition exactly as claim C1 states it: retained iff
`(no inclusion globs OR some inclusion matches the normalized path) AND no
exclusion glob matches`, with aliased leaves retained unconditionally. -/
def c1ClaimCond (pats : Patterns) (aliases : Option (List (String × String)))
    (p : String) : Bool :=
  let pth := to_valid_ident (aliasedPathOf aliases p)
  (aliasLookup aliases p).isSome || (leafInclPass pats pth && leafExclPass pats pth)

/-- The amended retention condition: like `c1ClaimCond`, with the extra
disjunct for a normalized path equal to the root sentinel, which the walk
retains unconditionally as well. -/
def c1AmendedCond (pats : Patterns) (aliases : Option (List (String × String)))
    (p : String) : Bool :=
  let pth := to_valid_ident (aliasedPathOf aliases p)
  (aliasLookup aliases p).isSome || (pth == ROOT)
    || (leafInclPass pats pth && leafExclPass pats pth)

/-- The field pushed for an aliased leaf that would otherwise be skipped: the
walk field with its absolute path collapsed onto its (aliased) name. -/
def rescuedLeafField (tf : TomlFields) (value : Value) (p : String)
    (parent_idx : Nat) : TomlField :=
  let f := mkWalkField (to_valid_ident (aliasedPathOf tf.aliases p)) value p
    (aliasNameOf tf.aliases p) parent_idx
  { f with path := f.name }

/-- Behavior of the leaf arm: the field count grows by one exactly when the
leaf is aliased or not skipped, and an aliased-but-skipped leaf is pushed
with its path collapsed onto its name. -/
lemma extractLeaf_spec (tf : TomlFields) (field : TomlField) (path : String)
    (is_alias : Bool) :
    ((extractLeaf tf field path is_alias).fields.length = tf.fields.length + 1
      ↔ (is_alias || !leafSkip tf.patterns path) = true) ∧
    (is_alias = true → leafSkip tf.patterns path = true →
      (extractLeaf tf field path is_alias).fields
        = tf.fields ++ [{ field with path := field.name }]) := by
  cases hA : is_alias <;> cases hS : leafSkip tf.patterns path <;>
    simp [extractLeaf, hA, hS]

/-- On a non-table node in a non-root position, the walk is the leaf arm
applied to the constructed field, the normalized aliased path, and the alias
flag. -/
lemma extract_nonTable (tf : TomlFields) (value : Value) (p : String)
    (parent_idx : Nat) (hv : value.isTableB = false)
    (hr : tf.fields.isEmpty = false) :
    extract_matched_paths_from_value tf value p parent_idx
      = extractLeaf tf
          (mkWalkField (to_valid_ident (aliasedPathOf tf.aliases p)) value p
            (aliasNameOf tf.aliases p) parent_idx)
          (to_valid_ident (aliasedPathOf tf.aliases p))
          (aliasLookup tf.aliases p).isSome := by
  cases value with
  | VTable t => simp [Value.isTableB] at hv
  | VString s =>
    rw [extract_matched_paths_from_value]; simp [hr]; intro a h; exact Value.noConfusion h
  | VInteger i =>
    rw [extract_matched_paths_from_value]; simp [hr]; intro a h; exact Value.noConfusion h
  | VFloat f =>
    rw [extract_matched_paths_from_value]; simp [hr]; intro a h; exact Value.noConfusion h
  | VBoolean b =>
    rw [extract_matched_paths_from_value]; simp [hr]; intro a h; exact Value.noConfusion h
  | VDatetime d =>
    rw [extract_matched_paths_from_value]; simp [hr]; intro a h; exact Value.noConfusion h
  | VArray a =>
    rw [extract_matched_paths_from_value]; simp [hr]; intro a h; exact Value.noConfusion h

/-- A concrete document whose root table has the quoted-empty key, so the
leaf's normalized path is the root sentinel. -/
def docC1 : Value := .VTable (.cons "" (.VInteger 1) .nil)

/-- A field collection over `docC1` whose exclusion glob set matches every
path (e.g. the compiled glob `**`), with no inclusion set. -/
def tfC1 : TomlFields :=
  { root_value := some docC1, fields := [],
    patterns := { inclusions := none, exclusions := some (fun _ => true), literals := [] },
    aliases := none, comments := none }

/-- C1, counterexample: the walk retains a leaf whose normalized path is the
root sentinel even though an exclusion glob matches it, so retention is not
the claimed `(inclusion passes AND no exclusion matches) OR aliased`
condition.  Concretely, in `tfC1` (document `{"": 1}`, exclusions matching
everything) the leaf at the empty path is retained (the built collection has
the root field plus that leaf) although the exclusion matches. -/
theorem c1_counterexample :
    (¬ ∀ (tf : TomlFields) (value : Value) (p : String) (parent_idx : Nat),
        value.isTableB = false →
        ((extract_matched_paths_from_value tf value p parent_idx).fields.length
            = tf.fields.length + 1
          ↔ c1ClaimCond tf.patterns tf.aliases p = true)) ∧
    (tfC1.build).fields.length = 2 ∧
    leafExclPass tfC1.patterns (to_valid_ident "") = false := by
  refine ⟨?_, by decide, by decide⟩
  intro h
  have h2 := (h { tfC1 with fields := [rootField docC1] } (.VInteger 1) "" 0 rfl).mp
    (by decide)
  exact absurd h2 (by decide)

/-- C1, amended: in the walk, a leaf (non-table node, away from the root
creation case) produces a retained field record iff it was matched by an
alias source, OR its normalized alias-rewritten path is the root sentinel,
OR ((no inclusion globs are present OR one matches that path) AND no
exclusion glob matches it); and when an aliased leaf would otherwise have
been dropped it is pushed with its absolute path collapsed to just its
(aliased) final identifier. -/
theorem c1_amended (tf : TomlFields) (value : Value) (p : String)
    (parent_idx : Nat) (hv : value.isTableB = false)
    (hr : tf.fields.isEmpty = false) :
    ((extract_matched_paths_from_value tf value p parent_idx).fields.length
        = tf.fields.length + 1
      ↔ c1AmendedCond tf.patterns tf.aliases p = true) ∧
    ((aliasLookup tf.aliases p).isSome = true →
      leafSkip tf.patterns (to_valid_ident (aliasedPathOf tf.aliases p)) = true →
      (extract_matched_paths_from_value tf value p parent_idx).fields
        = tf.fields ++ [rescuedLeafField tf value p parent_idx]) := by
  rw [extract_nonTable tf value p parent_idx hv hr]
  obtain ⟨h1, h2⟩ := extractLeaf_spec tf
    (mkWalkField (to_valid_ident (aliasedPathOf tf.aliases p)) value p
      (aliasNameOf tf.aliases p) parent_idx)
    (to_valid_ident (aliasedPathOf tf.aliases p))
    (aliasLookup tf.aliases p).isSome
  constructor
  · rw [h1]
    simp only [c1AmendedCond, leafSkip, Bool.not_not, Bool.or_assoc]
  · intro hA hS
    rw [h2 hA hS]
    rfl

/-- A small collection with a non-empty field list, used to instantiate the
amended claim. -/
def tfC1w : TomlFields :=
  { root_value := none, fields := [rootField (.VTable .nil)],
    patterns := { inclusions := none, exclusions := none, literals := [] },
    aliases := none, comments := none }

/-- C1, witness: the amended claim at a concrete leaf. -/
theorem c1_witness :
    ((extract_matched_paths_from_value tfC1w (.VString "v") "pkg.name" 1).fields.length
        = tfC1w.fields.length + 1
      ↔ c1AmendedCond tfC1w.patterns tfC1w.aliases "pkg.name" = true) ∧
    ((aliasLookup tfC1w.aliases "pkg.name").isSome = true →
      leafSkip tfC1w.patterns (to_valid_ident (aliasedPathOf tfC1w.aliases "pkg.name")) = true →
      (extract_matched_paths_from_value tfC1w (.VString "v") "pkg.name" 1).fields
        = tfC1w.fields ++ [rescuedLeafField tfC1w (.VString "v") "pkg.name" 1]) :=
  c1_amended tfC1w (.VString "v") "pkg.name" 1 rfl rfl

/-! ## Claim C4: effective-tree parents -/

/-- A document with two distinct tables both named `x`: `[a.x]` (holding a
retained leaf) and `[b.x]`. -/
def docC4 : Value :=
  .VTable (.cons "a" (.VTable (.cons "x"
      (.VTable (.cons "key" (.VInteger 1) .nil)) .nil))
    (.cons "b" (.VTable (.cons "x" (.VTable .nil) .nil)) .nil))

/-- The built field collection over `docC4` with no patterns. -/
def tfC4 : TomlFields :=
  { root_value := some docC4, fields := [],
    patterns := { inclusions := none, exclusions := none, literals := [] },
    aliases := none, comments := none }

/-- C4, counterexample: in the collection built from `docC4`, the retained
leaf `a.x.key` has effective-parent name `x`, but two distinct fields of the
collection are named `x` (the tables at `a.x` and `b.x`), so the field whose
name equals the second-to-last segment of the effective module path is not
unique. -/
theorem c4_counterexample :
    ∃ f ∈ (tfC4.build).fields,
      ¬ ∃! g, g ∈ (tfC4.build).fields ∧ g.name = relativeParentName f := by
  have hany : (tfC4.build).fields.any
      (fun f => (f.name == "key") && (relativeParentName f == "x")) = true := by decide
  obtain ⟨f, hf, hfp⟩ := List.any_eq_true.mp hany
  obtain ⟨hfn, hfr⟩ := Bool.and_eq_true _ _ |>.mp hfp
  have hrel : relativeParentName f = "x" := by simpa using hfr
  have h1 : (tfC4.build).fields.any
      (fun g => (g.name == "x") && (g.path == "a.x")) = true := by decide
  have h2 : (tfC4.build).fields.any
      (fun g => (g.name == "x") && (g.path == "b.x")) = true := by decide
  obtain ⟨g1, hg1, hp1⟩ := List.any_eq_true.mp h1
  obtain ⟨g2, hg2, hp2⟩ := List.any_eq_true.mp h2
  obtain ⟨hn1, hq1⟩ := Bool.and_eq_true _ _ |>.mp hp1
  obtain ⟨hn2, hq2⟩ := Bool.and_eq_true _ _ |>.mp hp2
  have hn1' : g1.name = "x" := by simpa using hn1
  have hn2' : g2.name = "x" := by simpa using hn2
  have hq1' : g1.path = "a.x" := by simpa using hq1
  have hq2' : g2.path = "b.x" := by simpa using hq2
  refine ⟨f, hf, ?_⟩
  rintro ⟨g, ⟨hgmem, hgname⟩, huniq⟩
  have e1 : g1 = g := huniq g1 ⟨hg1, by rw [hn1', hrel]⟩
  have e2 : g2 = g := huniq g2 ⟨hg2, by rw [hn2', hrel]⟩
  have hpp : g1.path = g2.path := congrArg TomlField.path (e1.trans e2.symm)
  have : ("a.x" : String) = "b.x" := hq1'.symm.trans (hpp.trans hq2')
  exact absurd this (by decide)

/-- C4, amended: resolving the effective-tree parent of a field F looks up
the *first* field of the collection whose name equals the second-to-last
segment of F's effective module path (the root sentinel when that is empty);
when the lookup succeeds, the parent is itself a field of the collection and
is the first one carrying that name, but it need not exist for every F and
need not be unique. -/
theorem c4_amended (tf : TomlFields) (f p : TomlField)
    (h : tf.get_relative_parent_of_field f = some p) :
    p ∈ tf.fields ∧ p.name = relativeParentName f ∧
    ∃ l1 l2, tf.fields = l1 ++ p :: l2
      ∧ ∀ g ∈ l1, g.name ≠ relativeParentName f := by
  unfold TomlFields.get_relative_parent_of_field TomlFields.get_by_name at h
  obtain ⟨hpa, l1, l2, heq, hall⟩ := find?_decomp _ _ _ h
  refine ⟨?_, by simpa using hpa, l1, l2, heq, ?_⟩
  · rw [heq]
    exact List.mem_append.mpr (Or.inr (List.mem_cons_self _ _))
  · intro g hg
    simpa using hall g hg

/-- The table field of the witness collection. -/
def c4wX : TomlField :=
  { name := "x", value := .VTable .nil, path := "x", relative_path := none,
    toml_path := none, «alias» := none, parent := none, comment := none }

/-- The leaf field of the witness collection. -/
def c4wKey : TomlField :=
  { name := "key", value := .VInteger 1, path := "x.key", relative_path := none,
    toml_path := none, «alias» := none, parent := none, comment := none }

/-- The witness collection. -/
def c4wTf : TomlFields :=
  { root_value := none, fields := [c4wX, c4wKey],
    patterns := { inclusions := none, exclusions := none, literals := [] },
    aliases := none, comments := none }

/-- C4, witness: the amended claim at a concrete collection where the leaf
`x.key` resolves its parent to the table named `x`. -/
theorem c4_witness :
    c4wX ∈ c4wTf.fields ∧ c4wX.name = relativeParentName c4wKey ∧
    ∃ l1 l2, c4wTf.fields = l1 ++ c4wX :: l2
      ∧ ∀ g ∈ l1, g.name ≠ relativeParentName c4wKey :=
  c4_amended c4wTf c4wKey c4wX rfl

/-! ## Claim C5: blank lines reset the comment accumulator -/

/-- C5: a blank (empty-after-trimming) line clears the pending-comment
accumulator and changes nothing else; consequently processing any document
that contains a blank line splits into processing the prefix, discarding the
accumulated comments, and processing the suffix — so no binding made after
the blank line can see a comment line from before it. -/
theorem c5_blank_line_resets (s : CState) (line : String) (pre post : List String)
    (h : strTrim line = "") :
    stepLine s line = { s with current_comments := [] } ∧
    processLines s (pre ++ line :: post)
      = processLines { (processLines s pre) with current_comments := [] } post := by
  have h1 : ∀ t : CState, stepLine t line = { t with current_comments := [] } := by
    intro t
    unfold stepLine
    rw [h]
    rfl
  refine ⟨h1 s, ?_⟩
  unfold processLines
  rw [List.foldl_append, List.foldl_cons, h1]

/-- C5, witness: a whitespace-only line between a comment line and a key
line. -/
theorem c5_witness :
    (stepLine initState "   " = { initState with current_comments := [] } ∧
      processLines initState (["# a"] ++ "   " :: ["key = 1"])
        = processLines
            { (processLines initState ["# a"]) with current_comments := [] }
            ["key = 1"]) ∧
    (processLines initState (["# a"] ++ "   " :: ["key = 1"])).comments = [] :=
  ⟨c5_blank_line_resets initState "   " ["# a"] ["key = 1"] (by decide), by decide⟩

/-! ## Claim C6: lines inside multi-line strings are inert -/

/-- C6: while the harvester's multi-line-string flag is set, a processed line
never contributes to the comment map (no key or header association) and never
adds a preceding comment line (the accumulator is unchanged, or cleared by a
blank line); the header path is untouched as well. -/
theorem c6_multiline_string_inert (s : CState) (line : String)
    (h : s.string_state ≠ StringState.None) :
    (stepLine s line).comments = s.comments ∧
    (stepLine s line).current_path = s.current_path ∧
    ((stepLine s line).current_comments = s.current_comments
      ∨ (stepLine s line).current_comments = []) := by
  cases hss : s.string_state with
  | None => exact absurd hss h
  | MultiSingleQuote =>
    by_cases ht : strIsEmpty (strTrim line) = true
    · simp [stepLine, hss, ht]
    · simp [stepLine, hss, ht]
      split <;> simp
  | MultiDoubleQuote =>
    by_cases ht : strIsEmpty (strTrim line) = true
    · simp [stepLine, hss, ht]
    · simp [stepLine, hss, ht]
      split <;> simp

/-- A state inside a `"""` string with a pending comment. -/
def c6wState : CState :=
  { comments := [], string_state := .MultiDoubleQuote,
    current_comments := ["pending"], current_path := [] }

/-- C6, witness: a would-be comment line inside a multi-line string. -/
theorem c6_witness :
    (stepLine c6wState "# inside a string").comments = c6wState.comments ∧
    (stepLine c6wState "# inside a string").current_path = c6wState.current_path ∧
    ((stepLine c6wState "# inside a string").current_comments
        = c6wState.current_comments
      ∨ (stepLine c6wState "# inside a string").current_comments = []) :=
  c6_multiline_string_inert c6wState "# inside a string" (by decide)

/-! ## Claim C7: the shape of harvested comment strings -/

/-- Does the trimmed line contain a multi-line-string delimiter?  (Such lines
flip the string flag instead of being harvested.) -/
def hasTripleDelim (t : String) : Bool :=
  strContains t tripleDq || strContains t tripleSq

/-- A preceding-comment line: after trimming it starts with `#` and carries
no multi-line-string delimiter. -/
def isCommentLine (l : String) : Bool :=
  startsWithChar (strTrim l) '#' && !hasTripleDelim (strTrim l)

/-- What the code actually pushes for a comment line: `trimmed[1..].trim()`. -/
def rustStripComment (l : String) : String := strTrim (strDrop (strTrim l) 1)

/-- A key line: non-blank after trimming, no multi-line delimiter, not a
header, not a comment, and containing an `=`. -/
def isKeyLine (l : String) : Bool :=
  !strIsEmpty (strTrim l) && !hasTripleDelim (strTrim l)
    && !startsWithChar (strTrim l) '[' && !startsWithChar (strTrim l) '#'
    && (findCharIdx (strTrim l) '=').isSome

/-- A string that starts with a character is not empty. -/
lemma startsWithChar_ne_empty (t : String) (c : Char)
    (h : startsWithChar t c = true) : strIsEmpty t = false := by
  unfold startsWithChar at h
  unfold strIsEmpty
  revert h
  cases t.toList <;> simp

/-- A string starting with `c` does not start with a different `d`. -/
lemma startsWithChar_unique (t : String) (c d : Char)
    (hc : startsWithChar t c = true) (hcd : c ≠ d) :
    startsWithChar t d = false := by
  unfold startsWithChar at hc ⊢
  revert hc
  cases t.toList with
  | nil => simp
  | cons x xs =>
    intro hc
    have hx : x = c := by simpa using hc
    subst hx
    simpa using hcd

/-- The accumulator push collapses the empty-comment conditional. -/
lemma if_empty_self (ct : String) : (if strIsEmpty ct then "" else ct) = ct := by
  by_cases h : strIsEmpty ct = true
  · rw [if_pos h, (strIsEmpty_iff ct).mp h]
  · rw [if_neg h]

/-- Effect of one comment line on the harvester state. -/
lemma stepLine_comment (s : CState) (l : String) (hs : s.string_state = .None)
    (hl : isCommentLine l = true) :
    stepLine s l
      = { s with current_comments := s.current_comments ++ [rustStripComment l] } := by
  obtain ⟨hhash, htrip⟩ := Bool.and_eq_true _ _ |>.mp hl
  have htd : hasTripleDelim (strTrim l) = false := by simpa using htrip
  have h3 := htd
  simp only [hasTripleDelim, Bool.or_eq_false_iff] at h3
  have hne : strIsEmpty (strTrim l) = false := startsWithChar_ne_empty _ _ hhash
  have hnb : startsWithChar (strTrim l) '[' = false :=
    startsWithChar_unique _ _ _ hhash (by decide)
  unfold stepLine stepRest
  rw [hs]
  simp [hne, h3.1, h3.2, hnb, hhash, rustStripComment, if_empty_self]

/-- Effect of one key line on the harvester state. -/
lemma stepLine_key (s : CState) (l : String) (pos : Nat)
    (hs : s.string_state = .None) (hl : isKeyLine l = true)
    (hp : findCharIdx (strTrim l) '=' = some pos) :
    stepLine s l =
      { s with
          comments :=
            (if (s.current_comments
                ++ (extract_inline_comment (strTrim l) pos).toList).isEmpty
             then s.comments
             else mapInsert s.comments (keyPathStr s.current_path (strTrim l) pos)
               (joinNl (s.current_comments
                 ++ (extract_inline_comment (strTrim l) pos).toList))),
          current_comments := [] } := by
  simp only [isKeyLine, Bool.and_eq_true] at hl
  obtain ⟨⟨⟨⟨h1, h2⟩, h3⟩, h4⟩, _⟩ := hl
  have hne : strIsEmpty (strTrim l) = false := by simpa using h1
  have htd : hasTripleDelim (strTrim l) = false := by simpa using h2
  have htd' := htd
  simp only [hasTripleDelim, Bool.or_eq_false_iff] at htd'
  have hnb : startsWithChar (strTrim l) '[' = false := by simpa using h3
  have hnh : startsWithChar (strTrim l) '#' = false := by simpa using h4
  unfold stepLine stepRest
  rw [hs]
  simp [hne, htd'.1, htd'.2, hnb, hnh, hp]

/-- Folding the harvester over comment lines only accumulates their stripped
texts, in order. -/
lemma processLines_comments (s : CState) (cs : List String)
    (hs : s.string_state = .None) (hcs : ∀ c ∈ cs, isCommentLine c = true) :
    processLines s cs
      = { s with current_comments := s.current_comments ++ cs.map rustStripComment } := by
  induction cs generalizing s with
  | nil => simp [processLines]
  | cons c cs ih =>
    simp only [processLines] at ih ⊢
    rw [List.foldl_cons, stepLine_comment s c hs (hcs c (List.mem_cons_self c cs))]
    rw [ih { s with current_comments := s.current_comments ++ [rustStripComment c] } hs
      (fun c' hc' => hcs c' (List.mem_cons_of_mem c hc'))]
    simp

/-- The claim's comment-line transformation: strip the leading `#` and a
single leading space (and nothing more). -/
def c7ClaimStrip (line : String) : String :=
  let rest := strDrop (strTrim line) 1
  if startsWithChar rest ' ' then strDrop rest 1 else rest

/-- C7, counterexample: on the comment line `#  hi` (two spaces) the code
stores `hi` — `trimmed[1..].trim()` removes *all* surrounding whitespace —
while the claim's rule (strip `#` and a single leading space) yields ` hi`. -/
theorem c7_counterexample :
    extract_comments "#  hi\nkey = 1" = [("key", "hi")] ∧
    c7ClaimStrip "#  hi" = " hi" ∧
    rustStripComment "#  hi" = "hi" ∧
    (" hi" : String) ≠ "hi" := by decide

/-- C7, amended: for a run of preceding comment lines followed by a key line,
the harvested string is exactly: each comment line stripped of its leading
`#` and *all* surrounding whitespace (an empty remainder contributing an
empty line), the lines joined by newline, and the inline comment (the text
after the first `#` beyond the first `=`, trimmed, when non-empty) appended
as the last line; when nothing was collected, no entry is made at all. -/
theorem c7_amended (cs : List String) (k : String) (pos : Nat)
    (hcs : ∀ c ∈ cs, isCommentLine c = true) (hk : isKeyLine k = true)
    (hp : findCharIdx (strTrim k) '=' = some pos) :
    (processLines initState (cs ++ [k])).comments =
      (if (cs.map rustStripComment
          ++ (extract_inline_comment (strTrim k) pos).toList).isEmpty
       then []
       else [(keyPathStr [] (strTrim k) pos,
              joinNl (cs.map rustStripComment
                ++ (extract_inline_comment (strTrim k) pos).toList))]) := by
  have h1 := processLines_comments initState cs rfl hcs
  unfold processLines at h1 ⊢
  rw [List.foldl_append, h1, List.foldl_cons, List.foldl_nil]
  rw [stepLine_key _ k pos rfl hk hp]
  simp [initState, mapInsert]

/-- C7, witness: two comment lines (the second bare) and an inline comment;
the harvested string is `a\n\nt`. -/
theorem c7_witness :
    ((processLines initState (["# a", "#"] ++ ["key = 1 # t"])).comments
      = (if ((["# a", "#"].map rustStripComment
            ++ (extract_inline_comment (strTrim "key = 1 # t") 4).toList).isEmpty)
         then []
         else [(keyPathStr [] (strTrim "key = 1 # t") 4,
                joinNl (["# a", "#"].map rustStripComment
                  ++ (extract_inline_comment (strTrim "key = 1 # t") 4).toList))])) ∧
    (processLines initState (["# a", "#"] ++ ["key = 1 # t"])).comments
      = [("key", "a\n\nt")] :=
  ⟨c7_amended ["# a", "#"] "key = 1 # t" 4 (by decide) (by decide) (by decide),
    by decide⟩

/-! ## Claim C10: empty inline comments are discarded -/

/-- C10: an inline `#` followed only by whitespace yields no inline comment,
and a key line carrying only such a `#` (with no preceding comment lines)
produces no entry in the comment map at all — unlike a preceding bare `#`
line, which contributes an empty string. -/
theorem c10_empty_inline_comment :
    (∀ (line : String) (after_pos comment_pos : Nat),
        findCharIdx line '#' = some comment_pos →
        after_pos < comment_pos →
        strTrim (strDrop line (comment_pos + 1)) = "" →
        extract_inline_comment line after_pos = none) ∧
    extract_comments "key = 1 #" = [] ∧
    extract_comments "#\nkey = 1" = [("key", "")] := by
  refine ⟨?_, by decide, by decide⟩
  intro line ap cp h1 h2 h3
  have h4 : strIsEmpty "" = true := rfl
  unfold extract_inline_comment
  simp [h1, h2, h3, h4]

/-- C10, witness: the key line `key = 1 #`. -/
theorem c10_witness : extract_inline_comment "key = 1 #" 4 = none :=
  c10_empty_inline_comment.1 "key = 1 #" 4 8 (by decide) (by decide) (by decide)

/-- C8, witness: the amended statement at the quoted kebab key `"a-b"`, whose
normalization is `a_b`. -/
theorem c8_witness :
    ((to_valid_ident "\"a-b\"" = ROOT
        ↔ ∀ c ∈ ("\"a-b\"" : String).toList, c = qmark) ∧
      (∃ n m, ("\"a-b\"" : String).toList
          = List.replicate n qmark
              ++ trimEndQuotes (trimStartQuotes ("\"a-b\"" : String).toList)
              ++ List.replicate m qmark) ∧
      ((∃ c ∈ ("\"a-b\"" : String).toList, c ≠ qmark) →
        (to_valid_ident "\"a-b\"").toList
          = (trimEndQuotes (trimStartQuotes ("\"a-b\"" : String).toList)).map
              dashToUnderscore)) ∧
    to_valid_ident "\"a-b\"" = "a_b" :=
  ⟨c8_amended "\"a-b\"", by decide⟩

/-! ## Claim C9: array value mapping -/

/-- The array case of the value-to-declaration mapping as the spec states it:
empty arrays give a sequence of string references with an empty literal;
otherwise the first element's type is probed, every element's variant tag is
compared with the first, and a homogeneous array gives a sequence of the
element type with the element literals, a heterogeneous one falls back to a
string reference holding the debug rendering. -/
def arrayTokensSpec (arr : VList) : RustType × TokenLit :=
  match arr.head? with
  | none => (.slice .strRef, .arr [])
  | some first =>
    if arr.all (fun v => v.tag == first.tag) then
      (.slice (convert_value_to_tokens first).1,
        .arr (arr.mapToList (fun v => (convert_value_to_tokens v).2)))
    else (.strRef, .debug arr)

/-- The literal collection of the homogeneous case agrees with mapping the
conversion over the elements. -/
lemma convertTokens_eq_mapToList :
    ∀ l : VList, convertTokens l = l.mapToList (fun v => (convert_value_to_tokens v).2)
  | .nil => rfl
  | .cons v rest => by
    rw [convertTokens, VList.mapToList, convertTokens_eq_mapToList rest]

/-- C9: for every TOML array the value-to-declaration mapping follows the
empty / homogeneous-by-first-tag / heterogeneous-debug-fallback rule. -/
theorem c9_array_value_mapping :
    ∀ arr : VList, convert_value_to_tokens (.VArray arr) = arrayTokensSpec arr
  | .nil => rfl
  | .cons a rest => by
    rw [convert_value_to_tokens, arrayTokensSpec]
    simp only [VList.head?, convertTokens_eq_mapToList]

/-! ## Claim C2: failure behavior when the document is unreadable -/

/-- C2: when the document can be read at none of the three attempted
locations, `RootModule::new` does *not* fail: its read chain ends in
`unwrap_or_default()` and produces the empty string, which then parses as the
empty TOML table, so generation proceeds from a default document.  The
parallel reader in `lib::generate_modules` (and spec section 7) treats the
same situation as fatal. -/
theorem c2_read_fallback (readFile : String → Option String) (ws md p : String)
    (h1 : readFile p = none) (h2 : readFile (pathJoin ws p) = none)
    (h3 : readFile (pathJoin md p) = none) :
    rootModuleNewTomlRaw readFile ws md p = "" ∧
    generateModulesReadToml readFile p
      = Except.error ("Failed to read TOML at " ++ p) := by
  unfold rootModuleNewTomlRaw generateModulesReadToml
  rw [h1, h2, h3]
  exact ⟨rfl, rfl⟩

/-- C2, witness: a file system with no readable file at all. -/
theorem c2_witness :
    ((fun _ => none : String → Option String) "Cargo.toml" = none) ∧
    rootModuleNewTomlRaw (fun _ => none) "/ws" "/pkg" "Cargo.toml" = "" ∧
    generateModulesReadToml (fun _ => none) "Cargo.toml"
      = Except.error ("Failed to read TOML at " ++ "Cargo.toml") :=
  ⟨rfl, (c2_read_fallback (fun _ => none) "/ws" "/pkg" "Cargo.toml" rfl rfl rfl).1,
    (c2_read_fallback (fun _ => none) "/ws" "/pkg" "Cargo.toml" rfl rfl rfl).2⟩

end Tomlfuse
